import Mathlib

/-!
Shallow embedding of the selection engine of `werkroom` (src/main.go):
the hierarchy model (`TreeNode`, `BuildFromVMs`), the filter engine
(`FilterService.Filter`), the render projection (`FlattenForDisplay`,
`VMStatus.GetAbbreviation`), and the interaction controller
(`model.Update`, `model.View`, the key handlers).

Go strings are modelled as Lean `String` (a packed `List Char`); Go's
byte-wise operations are modelled char-wise, which agrees with Go on the
ASCII data the program manipulates.  Go slices become Lean lists; `nil`
pointers become `Option`.  Each definition mirrors the correspondingly
named Go function.
-/

/-! ### String helpers (models of Go `strings` operations) -/

/-- Model of Go `strings.ToLower` on the character list of a string.
Lean's `Char.toLower` lowers ASCII letters, which matches Go on ASCII input. -/
def lowerData (s : List Char) : List Char := s.map Char.toLower

/-- Model of Go `strings.Contains s pat`: `pat` occurs as a contiguous
substring of `s` (the empty pattern always matches). -/
def strContainsSub (s pat : List Char) : Bool :=
  match s with
  | [] => pat.isEmpty
  | _ :: t => pat.isPrefixOf s || strContainsSub t pat

/-- Model of Go `strings.Split value sep` for a single-character separator:
splits at every occurrence, keeping empty segments; the result is never empty. -/
def splitOn (sep : Char) : List Char → List (List Char)
  | [] => [[]]
  | c :: rest =>
    if c = sep then [] :: splitOn sep rest
    else
      match splitOn sep rest with
      | [] => [[c]]
      | s :: ss => (c :: s) :: ss

/-! ### Domain models (src/main.go, DOMAIN MODELS section) -/

/-- A single metadata key-value pair (`MetadataItem`). -/
structure MetadataItem where
  key : String
  value : String
deriving DecidableEq, Repr

/-- A GCP VM instance record (`VM`).  `metadata = none` covers both a `nil`
`Metadata` pointer and a `nil` `Items` slice in the Go struct: in both cases
`GetInstanceGroup` sees no items. -/
structure VM where
  name : String
  zone : String
  status : String
  metadata : Option (List MetadataItem)
deriving DecidableEq, Repr

/-- The metadata items visible to `GetInstanceGroup` (empty when the
`Metadata` pointer or its `Items` slice is `nil`). -/
def metaItems (vm : VM) : List MetadataItem := vm.metadata.getD []

/-- The characters of the literal segment name `"instanceGroupManagers"`. -/
def igmSeg : List Char := "instanceGroupManagers".data

/-- The characters of the substring `"instanceGroupManagers/"` tested by
`strings.Contains` in `VM.GetInstanceGroup`. -/
def igmSlash : List Char := "instanceGroupManagers/".data

/-- The inner loop of `VM.GetInstanceGroup`: scan the split segments for the
first one equal to `instanceGroupManagers` that has a following segment, and
return that following segment. -/
def findIGMSuccessor : List (List Char) → Option (List Char)
  | [] => none
  | [_] => none
  | p :: q :: rest => if p = igmSeg then some q else findIGMSuccessor (q :: rest)

/-- The outer loop of `VM.GetInstanceGroup` over the metadata items: the first
`created-by` item whose value contains `instanceGroupManagers/` and yields a
successor segment determines the result (even when that segment is empty);
items that fail the substring test or yield no successor are skipped. -/
def getGroupFromItems : List MetadataItem → String
  | [] => ""
  | item :: rest =>
    if item.key = "created-by" ∧ strContainsSub item.value.data igmSlash then
      match findIGMSuccessor (splitOn '/' item.value.data) with
      | some g => String.mk g
      | none => getGroupFromItems rest
    else getGroupFromItems rest

/-- Model of `VM.GetInstanceGroup`: extracts the instance group name from the
VM metadata, returning `""` for ungrouped VMs. -/
def GetInstanceGroup (vm : VM) : String := getGroupFromItems (metaItems vm)

/-- Model of `VMStatus.GetAbbreviation`: the single-letter status badge. -/
def GetAbbreviation (s : String) : String :=
  if s = "RUNNING" then "R"
  else if s = "TERMINATED" then "T"
  else if s = "PROVISIONING" then "P"
  else if s = "STOPPING" then "S"
  else "?"

/-! ### Tree data structure (src/main.go, TREE DATA STRUCTURE section) -/

/-- The tag of a tree node (`NodeType`): `GroupNode` or `InstanceNode`. -/
inductive NodeType where
  | groupNode
  | instanceNode
deriving DecidableEq, Repr

/-- A node of the two-level tree (`TreeNode`).  The Go struct holds all
fields for both variants; the `vm` pointer becomes an `Option`. -/
inductive TreeNode : Type where
  | mk : NodeType → String → Option VM → String → Bool → List TreeNode → Nat → TreeNode

/-- The `Type` field of a `TreeNode`. -/
def TreeNode.type : TreeNode → NodeType
  | .mk t _ _ _ _ _ _ => t

/-- The `Name` field of a `TreeNode`. -/
def TreeNode.name : TreeNode → String
  | .mk _ n _ _ _ _ _ => n

/-- The `VM` field of a `TreeNode`. -/
def TreeNode.vm : TreeNode → Option VM
  | .mk _ _ v _ _ _ _ => v

/-- The `GroupName` field of a `TreeNode`. -/
def TreeNode.groupName : TreeNode → String
  | .mk _ _ _ g _ _ _ => g

/-- The `IsExpanded` field of a `TreeNode`. -/
def TreeNode.isExpanded : TreeNode → Bool
  | .mk _ _ _ _ e _ _ => e

/-- The `Children` field of a `TreeNode`. -/
def TreeNode.children : TreeNode → List TreeNode
  | .mk _ _ _ _ _ c _ => c

/-- The `Depth` field of a `TreeNode`. -/
def TreeNode.depth : TreeNode → Nat
  | .mk _ _ _ _ _ _ d => d

theorem TreeNode.type_mk (t nm v g e cs d) : (TreeNode.mk t nm v g e cs d).type = t := rfl

theorem TreeNode.name_mk (t nm v g e cs d) : (TreeNode.mk t nm v g e cs d).name = nm := rfl

theorem TreeNode.vm_mk (t nm v g e cs d) : (TreeNode.mk t nm v g e cs d).vm = v := rfl

theorem TreeNode.groupName_mk (t nm v g e cs d) : (TreeNode.mk t nm v g e cs d).groupName = g := rfl

theorem TreeNode.isExpanded_mk (t nm v g e cs d) : (TreeNode.mk t nm v g e cs d).isExpanded = e := rfl

theorem TreeNode.children_mk (t nm v g e cs d) : (TreeNode.mk t nm v g e cs d).children = cs := rfl

theorem TreeNode.depth_mk (t nm v g e cs d) : (TreeNode.mk t nm v g e cs d).depth = d := rfl

/-- The node produced by `TreeManager.ToggleNode` for a matched group: the
same node with its `IsExpanded` flag replaced (the in-place mutation of the
Go code, expressed by replacement in the canonical list). -/
def setExpanded (n : TreeNode) (b : Bool) : TreeNode :=
  TreeNode.mk n.type n.name n.vm n.groupName b n.children n.depth

/-- Model of `TreeManager.FlattenForDisplay`'s loop: the accumulated result
slice, extended with each node and, for an expanded group, its children. -/
def flattenLoop (acc : List TreeNode) : List TreeNode → List TreeNode
  | [] => acc
  | n :: rest =>
    flattenLoop
      (if n.type = NodeType.groupNode ∧ n.isExpanded = true
        then (acc ++ [n]) ++ n.children
        else acc ++ [n])
      rest

/-- Model of `TreeManager.FlattenForDisplay`: the ordered display sequence. -/
def FlattenForDisplay (nodes : List TreeNode) : List TreeNode := flattenLoop [] nodes

/-- The loop of `TreeManager.ToggleNode`: flip the `IsExpanded` flag of the
first group node with the given name, leaving everything else unchanged. -/
def toggleFirst (name : String) : List TreeNode → List TreeNode
  | [] => []
  | n :: rest =>
    if n.type = NodeType.groupNode ∧ n.name = name
      then setExpanded n (!n.isExpanded) :: rest
      else n :: toggleFirst name rest

/-- Model of `TreeManager.ToggleNode`: a no-op for instance targets, otherwise
a by-name toggle of the first matching canonical group node. -/
def ToggleNode (nodes : List TreeNode) (target : TreeNode) : List TreeNode :=
  match target.type with
  | NodeType.instanceNode => nodes
  | NodeType.groupNode => toggleFirst target.name nodes

/-! ### Filtering service (src/main.go, FILTERING SERVICE section) -/

/-- Does a node name match the (already lowercased) filter text?  Mirrors
`strings.Contains(strings.ToLower(name), filterLower)`. -/
def nameMatches (fl : List Char) (name : String) : Bool :=
  strContainsSub (lowerData name.data) fl

/-- The derived group node constructed by `FilterService.Filter`: a fresh
`TreeNode` literal that copies `Type`, `Name`, `GroupName` and `Depth`,
forces `IsExpanded := true`, installs the given children, and leaves the
`VM` field at its zero value (`nil`). -/
def derivedGroup (n : TreeNode) (cs : List TreeNode) : TreeNode :=
  TreeNode.mk NodeType.groupNode n.name none n.groupName true cs n.depth

/-- The loop of `FilterService.Filter`, accumulating the `filtered` slice. -/
def filterLoop (fl : List Char) (acc : List TreeNode) : List TreeNode → List TreeNode
  | [] => acc
  | n :: rest =>
    match n.type with
    | NodeType.groupNode =>
      if nameMatches fl n.name then
        filterLoop fl (acc ++ [derivedGroup n n.children]) rest
      else
        let mc := n.children.filter (fun c => nameMatches fl c.name)
        if mc.length > 0 then filterLoop fl (acc ++ [derivedGroup n mc]) rest
        else filterLoop fl acc rest
    | NodeType.instanceNode =>
      if nameMatches fl n.name then filterLoop fl (acc ++ [n]) rest
      else filterLoop fl acc rest

/-- Model of `FilterService.Filter`: identity on the empty query, otherwise
the single pass over the top-level nodes with the lowercased query. -/
def FilterF (nodes : List TreeNode) (filterText : String) : List TreeNode :=
  if filterText = "" then nodes
  else filterLoop (lowerData filterText.data) [] nodes

/-- Per-node description of one iteration of the `Filter` loop: a matching
group keeps all children, a group with only matching children keeps exactly
those, a group with no match is dropped, an instance is kept iff its name
matches; kept groups are the fresh derived copies with `expanded := true`. -/
def filterNodeSpec (fl : List Char) (n : TreeNode) : Option TreeNode :=
  match n.type with
  | NodeType.groupNode =>
    if nameMatches fl n.name then some (derivedGroup n n.children)
    else
      let mc := n.children.filter (fun c => nameMatches fl c.name)
      if mc.length > 0 then some (derivedGroup n mc) else none
  | NodeType.instanceNode =>
    if nameMatches fl n.name then some n else none

/-! ### Basic accessor lemmas -/

theorem derivedGroup_type (n : TreeNode) (cs : List TreeNode) :
    (derivedGroup n cs).type = NodeType.groupNode := rfl

theorem derivedGroup_name (n : TreeNode) (cs : List TreeNode) :
    (derivedGroup n cs).name = n.name := rfl

theorem derivedGroup_isExpanded (n : TreeNode) (cs : List TreeNode) :
    (derivedGroup n cs).isExpanded = true := rfl

theorem derivedGroup_children (n : TreeNode) (cs : List TreeNode) :
    (derivedGroup n cs).children = cs := rfl

/-! ### The filter loop as a `filterMap` -/

theorem filterLoop_eq (fl : List Char) :
    ∀ (l : List TreeNode) (acc : List TreeNode),
      filterLoop fl acc l = acc ++ l.filterMap (filterNodeSpec fl)
  | [], acc => by simp [filterLoop]
  | n :: rest, acc => by
    cases htype : n.type with
    | groupNode =>
      by_cases hm : nameMatches fl n.name = true
      · simp [filterLoop, filterNodeSpec, htype, hm, List.filterMap_cons,
          filterLoop_eq fl rest]
      · by_cases hc : (n.children.filter (fun c => nameMatches fl c.name)).length > 0
        · simp [filterLoop, filterNodeSpec, htype, hm, hc, List.filterMap_cons,
            filterLoop_eq fl rest]
        · simp [filterLoop, filterNodeSpec, htype, hm, hc, List.filterMap_cons,
            filterLoop_eq fl rest]
    | instanceNode =>
      by_cases hm : nameMatches fl n.name = true
      · simp [filterLoop, filterNodeSpec, htype, hm, List.filterMap_cons,
          filterLoop_eq fl rest]
      · simp [filterLoop, filterNodeSpec, htype, hm, List.filterMap_cons,
          filterLoop_eq fl rest]

theorem FilterF_eq (nodes : List TreeNode) (q : String) (hq : q ≠ "") :
    FilterF nodes q = nodes.filterMap (filterNodeSpec (lowerData q.data)) := by
  rw [FilterF, if_neg hq, filterLoop_eq]
  simp

theorem FilterF_empty (nodes : List TreeNode) : FilterF nodes "" = nodes := rfl

/-- Claim C1: filtering with the empty query is the identity; for a non-empty
query every returned group is expanded, and the result is exactly the
input-ordered per-node selection described by `filterNodeSpec`: a group whose
name matches (case-insensitive substring) is kept with all its original
children, a group with only matching children is kept with exactly those
children, a group with no match anywhere is dropped, and a top-level instance
node is kept iff its own name matches. -/
theorem filterNodeSpec_expanded (fl : List Char) (a n : TreeNode)
    (h : filterNodeSpec fl a = some n) (ht : n.type = NodeType.groupNode) :
    n.isExpanded = true := by
  cases a with
  | mk t nm v g e cs d =>
    cases t with
    | groupNode =>
      by_cases hm : nameMatches fl nm = true
      · simp [filterNodeSpec, TreeNode.type_mk, TreeNode.name_mk, hm] at h
        subst h
        rfl
      · by_cases hc : ((cs.filter (fun c => nameMatches fl c.name)).length > 0)
        · simp [filterNodeSpec, TreeNode.type_mk, TreeNode.name_mk, TreeNode.children_mk, hm, hc] at h
          subst h
          rfl
        · simp [filterNodeSpec, TreeNode.type_mk, TreeNode.name_mk, TreeNode.children_mk, hm, hc] at h
    | instanceNode =>
      by_cases hm : nameMatches fl nm = true
      · simp [filterNodeSpec, TreeNode.type_mk, TreeNode.name_mk, hm] at h
        subst h
        simp [TreeNode.type_mk] at ht
      · simp [filterNodeSpec, TreeNode.type_mk, TreeNode.name_mk, hm] at h

theorem c1_filter_correctness (nodes : List TreeNode) (q : String) (hq : q ≠ "") :
    FilterF nodes "" = nodes
    ∧ (∀ n ∈ FilterF nodes q, n.type = NodeType.groupNode → n.isExpanded = true)
    ∧ FilterF nodes q = nodes.filterMap (filterNodeSpec (lowerData q.data)) := by
  refine ⟨rfl, ?_, FilterF_eq nodes q hq⟩
  intro n hn htype
  rw [FilterF_eq nodes q hq] at hn
  rcases List.mem_filterMap.mp hn with ⟨a, _, hfa⟩
  exact filterNodeSpec_expanded _ a n hfa htype

/-! ### Sample data for witnesses (the spec section 8 end-to-end scenario) -/

def cbWebFleet : MetadataItem :=
  MetadataItem.mk "created-by" "projects/p/zones/z1/instanceGroupManagers/web-fleet"

def vmWeb1 : VM := VM.mk "web-1" "zones/z1" "RUNNING" (some [cbWebFleet])

def vmWeb2 : VM := VM.mk "web-2" "zones/z1" "TERMINATED" (some [cbWebFleet])

def vmDb1 : VM := VM.mk "db-1" "zones/z2" "RUNNING" none

def sampleChild1 : TreeNode :=
  TreeNode.mk NodeType.instanceNode "web-1" (some vmWeb1) "web-fleet" false [] 1

def sampleChild2 : TreeNode :=
  TreeNode.mk NodeType.instanceNode "web-2" (some vmWeb2) "web-fleet" false [] 1

def sampleGroup : TreeNode :=
  TreeNode.mk NodeType.groupNode "web-fleet" none "web-fleet" false
    [sampleChild1, sampleChild2] 0

def sampleUngrouped : TreeNode :=
  TreeNode.mk NodeType.instanceNode "db-1" (some vmDb1) "" false [] 0

def sampleNodes : List TreeNode := [sampleGroup, sampleUngrouped]

theorem c1_witness :
    FilterF sampleNodes "" = sampleNodes
    ∧ (∀ n ∈ FilterF sampleNodes "web", n.type = NodeType.groupNode →
        n.isExpanded = true)
    ∧ FilterF sampleNodes "web"
        = sampleNodes.filterMap (filterNodeSpec (lowerData "web".data)) :=
  c1_filter_correctness sampleNodes "web" (by decide)

/-! ### Idempotence of the filter -/

theorem filterNodeSpec_idem (fl : List Char) (n m : TreeNode)
    (h : filterNodeSpec fl n = some m) : filterNodeSpec fl m = some m := by
  cases n with
  | mk t nm v g e cs d =>
    cases t with
    | groupNode =>
      by_cases hm : nameMatches fl nm = true
      · simp [filterNodeSpec, TreeNode.type_mk, TreeNode.name_mk, hm] at h
        subst h
        simp [filterNodeSpec, derivedGroup, TreeNode.type_mk, TreeNode.name_mk,
          TreeNode.groupName_mk, TreeNode.depth_mk, TreeNode.children_mk, hm]
      · by_cases hc : ((cs.filter (fun c => nameMatches fl c.name)).length > 0)
        · simp [filterNodeSpec, TreeNode.type_mk, TreeNode.name_mk, TreeNode.children_mk, hm, hc] at h
          subst h
          simp [filterNodeSpec, derivedGroup, TreeNode.type_mk, TreeNode.name_mk,
            TreeNode.groupName_mk, TreeNode.depth_mk, TreeNode.children_mk, hm,
            List.filter_filter, Bool.and_self, hc]
        · simp [filterNodeSpec, TreeNode.type_mk, TreeNode.name_mk, TreeNode.children_mk, hm, hc] at h
    | instanceNode =>
      by_cases hm : nameMatches fl nm = true
      · simp [filterNodeSpec, TreeNode.type_mk, TreeNode.name_mk, hm] at h
        subst h
        simp [filterNodeSpec, TreeNode.type_mk, TreeNode.name_mk, hm]
      · simp [filterNodeSpec, TreeNode.type_mk, TreeNode.name_mk, hm] at h

theorem filterMap_idem_of_fixed {α : Type} (f : α → Option α)
    (hf : ∀ a b, f a = some b → f b = some b) :
    ∀ l : List α, (l.filterMap f).filterMap f = l.filterMap f
  | [] => rfl
  | a :: t => by
    cases h : f a with
    | none => simp [List.filterMap_cons, h, filterMap_idem_of_fixed f hf t]
    | some b => simp [List.filterMap_cons, h, hf a b h, filterMap_idem_of_fixed f hf t]

/-- Claim C6: filtering is idempotent — applying the filter to its own output
with the same query yields that output unchanged, for every node list and
every query (including the empty one). -/
theorem c6_filter_idempotent (nodes : List TreeNode) (q : String) :
    FilterF (FilterF nodes q) q = FilterF nodes q := by
  by_cases hq : q = ""
  · subst hq
    rfl
  · rw [FilterF_eq nodes q hq, FilterF_eq _ q hq]
    exact filterMap_idem_of_fixed _ (filterNodeSpec_idem _) nodes

/-! ### The flatten loop as a `flatMap` -/

theorem flattenLoop_eq :
    ∀ (l : List TreeNode) (acc : List TreeNode),
      flattenLoop acc l
        = acc ++ l.flatMap (fun n =>
            n :: (if n.type = NodeType.groupNode ∧ n.isExpanded = true
                  then n.children else []))
  | [], acc => by simp [flattenLoop]
  | n :: rest, acc => by
    by_cases h : n.type = NodeType.groupNode ∧ n.isExpanded = true
    · simp [flattenLoop, h, flattenLoop_eq rest]
    · simp [flattenLoop, h, flattenLoop_eq rest]

theorem flatMap_id_of_collapsed :
    ∀ l : List TreeNode,
      (∀ n ∈ l, ¬(n.type = NodeType.groupNode ∧ n.isExpanded = true)) →
      l.flatMap (fun n =>
        n :: (if n.type = NodeType.groupNode ∧ n.isExpanded = true
              then n.children else [])) = l
  | [], _ => rfl
  | n :: rest, h => by
    have hn := h n (by simp)
    simp [List.flatMap_cons, hn,
      flatMap_id_of_collapsed rest (fun m hm => h m (by simp [hm]))]

/-- Claim C3: flattening emits each top-level node in input order and,
immediately after a group node, that group's children exactly when the group
is expanded (the `flatMap` equation); consequently a fully collapsed node
list flattens to itself, and an expanded group's child block sits directly
after its parent row. -/
theorem c3_flatten_invariant (nodes : List TreeNode) :
    FlattenForDisplay nodes
      = nodes.flatMap (fun n =>
          n :: (if n.type = NodeType.groupNode ∧ n.isExpanded = true
                then n.children else []))
    ∧ ((∀ n ∈ nodes, n.type = NodeType.groupNode → n.isExpanded = false) →
        FlattenForDisplay nodes = nodes)
    ∧ (∀ pre g post, nodes = pre ++ g :: post → g.type = NodeType.groupNode →
        g.isExpanded = true →
        FlattenForDisplay nodes
          = FlattenForDisplay pre ++ g :: (g.children ++ FlattenForDisplay post)) := by
  have hmain : ∀ l : List TreeNode,
      FlattenForDisplay l
        = l.flatMap (fun n =>
            n :: (if n.type = NodeType.groupNode ∧ n.isExpanded = true
                  then n.children else [])) := by
    intro l
    rw [FlattenForDisplay, flattenLoop_eq]
    simp
  refine ⟨hmain nodes, ?_, ?_⟩
  · intro hall
    rw [hmain]
    refine flatMap_id_of_collapsed nodes (fun n hn hcon => ?_)
    have := hall n hn hcon.1
    rw [this] at hcon
    exact Bool.false_ne_true hcon.2
  · intro pre g post hsplit hgt hge
    subst hsplit
    rw [hmain, hmain, hmain]
    simp [List.flatMap_append, List.flatMap_cons, hgt, hge]

theorem c3_witness : FlattenForDisplay sampleNodes = sampleNodes :=
  (c3_flatten_invariant sampleNodes).2.1 (by decide)

/-! ### Status badge -/

/-- Claim C7: the status badge function is total: the four known statuses map
to their distinct single letters R, T, P, S, every result is a single
character, and every other status string maps to the `?` badge. -/
theorem c7_status_badge :
    GetAbbreviation "RUNNING" = "R"
    ∧ GetAbbreviation "TERMINATED" = "T"
    ∧ GetAbbreviation "PROVISIONING" = "P"
    ∧ GetAbbreviation "STOPPING" = "S"
    ∧ (∀ s : String, (GetAbbreviation s).length = 1)
    ∧ (∀ s : String, s ≠ "RUNNING" → s ≠ "TERMINATED" → s ≠ "PROVISIONING" →
        s ≠ "STOPPING" → GetAbbreviation s = "?") := by
  refine ⟨rfl, rfl, rfl, rfl, ?_, ?_⟩
  · intro s
    unfold GetAbbreviation
    split
    · rfl
    · split
      · rfl
      · split
        · rfl
        · split
          · rfl
          · rfl
  · intro s h1 h2 h3 h4
    simp [GetAbbreviation, h1, h2, h3, h4]

theorem c7_witness : GetAbbreviation "STAGING" = "?" :=
  c7_status_badge.2.2.2.2.2 "STAGING" (by decide) (by decide) (by decide) (by decide)

/-! ### Toggling targets the canonical model by name -/

theorem toggleFirst_no_match (name : String) :
    ∀ l : List TreeNode,
      (∀ n ∈ l, ¬(n.type = NodeType.groupNode ∧ n.name = name)) →
      toggleFirst name l = l
  | [], _ => rfl
  | n :: rest, h => by
    simp only [toggleFirst, if_neg (h n (by simp))]
    rw [toggleFirst_no_match name rest (fun m hm => h m (by simp [hm]))]

theorem toggleFirst_found (name : String) :
    ∀ (pre : List TreeNode) (g : TreeNode) (post : List TreeNode),
      (∀ n ∈ pre, ¬(n.type = NodeType.groupNode ∧ n.name = name)) →
      g.type = NodeType.groupNode → g.name = name →
      toggleFirst name (pre ++ g :: post)
        = pre ++ setExpanded g (!g.isExpanded) :: post
  | [], g, post, _, hg, hn => by
    simp only [List.nil_append, toggleFirst, if_pos (And.intro hg hn)]
  | p :: pre, g, post, h, hg, hn => by
    simp only [List.cons_append, toggleFirst, if_neg (h p (by simp)), List.append_eq]
    rw [toggleFirst_found name pre g post (fun m hm => h m (by simp [hm])) hg hn]

/-- Claim C4: a toggle is a no-op on instance targets and when no canonical
group bears the target's name; it depends only on the target's type and name
(so a node taken from a filtered, derived view toggles exactly like the
canonical node of that name); every group in a filtered view corresponds by
name to a canonical group; and when a canonical group with the target's name
exists, the first such group has its expanded flag flipped in place in the
canonical list, where the unfiltered view reads it. -/
theorem c4_toggle_canonical (nodes : List TreeNode) (target : TreeNode) :
    (target.type = NodeType.instanceNode → ToggleNode nodes target = nodes)
    ∧ ((∀ n ∈ nodes, n.type = NodeType.groupNode → n.name ≠ target.name) →
        ToggleNode nodes target = nodes)
    ∧ (∀ t2 : TreeNode, t2.type = target.type → t2.name = target.name →
        ToggleNode nodes t2 = ToggleNode nodes target)
    ∧ (∀ q : String, q ≠ "" → ∀ d ∈ FilterF nodes q, d.type = NodeType.groupNode →
        ∃ n ∈ nodes, n.type = NodeType.groupNode ∧ n.name = d.name)
    ∧ (target.type = NodeType.groupNode →
        ∀ pre g post, nodes = pre ++ g :: post →
          (∀ n ∈ pre, n.type = NodeType.groupNode → n.name ≠ target.name) →
          g.type = NodeType.groupNode → g.name = target.name →
          ToggleNode nodes target = pre ++ setExpanded g (!g.isExpanded) :: post) := by
  refine ⟨?_, ?_, ?_, ?_, ?_⟩
  · intro h
    simp [ToggleNode, h]
  · intro h
    cases ht : target.type with
    | instanceNode => simp [ToggleNode, ht]
    | groupNode =>
      simp only [ToggleNode, ht]
      exact toggleFirst_no_match _ nodes (fun n hn hcon => h n hn hcon.1 hcon.2)
  · intro t2 hty hnm
    unfold ToggleNode
    rw [hty, hnm]
  · intro q hq d hd hdt
    rw [FilterF_eq nodes q hq] at hd
    rcases List.mem_filterMap.mp hd with ⟨a, ha, hfa⟩
    refine ⟨a, ha, ?_⟩
    cases a with
    | mk t nm v g e cs d2 =>
      cases t with
      | groupNode =>
        refine ⟨rfl, ?_⟩
        by_cases hm : nameMatches (lowerData q.data) nm = true
        · simp [filterNodeSpec, TreeNode.type_mk, TreeNode.name_mk, hm] at hfa
          subst hfa
          rfl
        · by_cases hc : ((cs.filter
              (fun c => nameMatches (lowerData q.data) c.name)).length > 0)
          · simp [filterNodeSpec, TreeNode.type_mk, TreeNode.name_mk,
              TreeNode.children_mk, hm, hc] at hfa
            subst hfa
            rfl
          · simp [filterNodeSpec, TreeNode.type_mk, TreeNode.name_mk,
              TreeNode.children_mk, hm, hc] at hfa
      | instanceNode =>
        by_cases hm : nameMatches (lowerData q.data) nm = true
        · simp [filterNodeSpec, TreeNode.type_mk, TreeNode.name_mk, hm] at hfa
          subst hfa
          simp [TreeNode.type_mk] at hdt
        · simp [filterNodeSpec, TreeNode.type_mk, TreeNode.name_mk, hm] at hfa
  · intro ht pre g post hsplit hpre hg hn
    subst hsplit
    simp only [ToggleNode, ht]
    exact toggleFirst_found _ pre g post
      (fun n hn2 hcon => hpre n hn2 hcon.1 hcon.2) hg hn

theorem c4_witness :
    ToggleNode sampleNodes (derivedGroup sampleGroup [])
      = [] ++ setExpanded sampleGroup (!sampleGroup.isExpanded) :: [sampleUngrouped] :=
  (c4_toggle_canonical sampleNodes (derivedGroup sampleGroup [])).2.2.2.2 rfl
    [] sampleGroup [sampleUngrouped] rfl (by simp) rfl rfl

/-! ### Building the tree from VM records (`TreeManager.BuildFromVMs`)

The Go code accumulates a `map[string][]*VM` while scanning the records, then
sorts the key set ascending and emits one group node per key followed by the
ungrouped instances.  The map is modelled as an association list in first
insertion order; since the code only reads the map through its (sorted) key
set and per-key lookups, the model is insensitive to Go's randomized map
iteration order.  `sortStrings` is an insertion sort with the byte-wise
(here: char-wise) lexicographic order used by Go's `sort.Strings`; on the
duplicate-free key set it produces the unique ascending arrangement. -/

def insertGroupVM : List (String × List VM) → String → VM → List (String × List VM)
  | [], g, vm => [(g, [vm])]
  | (k, l) :: rest, g, vm =>
    if k = g then (k, l ++ [vm]) :: rest
    else (k, l) :: insertGroupVM rest g vm

/-- One iteration of the grouping loop of `BuildFromVMs`: a record with a
non-empty instance group is appended to that group's list, any other record
is appended to the ungrouped list. -/
def partStep (acc : List (String × List VM) × List VM) (vm : VM) :
    List (String × List VM) × List VM :=
  if GetInstanceGroup vm ≠ "" then (insertGroupVM acc.1 (GetInstanceGroup vm) vm, acc.2)
  else (acc.1, acc.2 ++ [vm])

/-- Reading `groups[g]` from the modelled map (`[]` when absent, like a Go
map's zero value). -/
def lookupGroup : List (String × List VM) → String → List VM
  | [], _ => []
  | (k, l) :: rest, g => if k = g then l else lookupGroup rest g

/-- Char-wise lexicographic `≤` on strings' character lists (Go `s <= t`). -/
def leChars : List Char → List Char → Bool
  | [], _ => true
  | _ :: _, [] => false
  | a :: as, b :: bs => if a < b then true else if b < a then false else leChars as bs

/-- Char-wise lexicographic `<` on strings' character lists (Go `s < t`). -/
def ltChars : List Char → List Char → Bool
  | [], [] => false
  | [], _ :: _ => true
  | _ :: _, [] => false
  | a :: as, b :: bs => if a < b then true else if b < a then false else ltChars as bs

def strLeB (a b : String) : Bool := leChars a.data b.data

def strLtB (a b : String) : Bool := ltChars a.data b.data

def insertSortedStr (g : String) : List String → List String
  | [] => [g]
  | h :: t => if strLeB g h then g :: h :: t else h :: insertSortedStr g t

/-- Model of `sort.Strings` on the collected group names: insertion sort by
the lexicographic order; on distinct names this is the unique ascending
arrangement, so it coincides with Go's sort. -/
def sortStrings : List String → List String
  | [] => []
  | h :: t => insertSortedStr h (sortStrings t)

/-- The instance node built for a grouped VM inside `BuildFromVMs`. -/
def mkInstanceChild (g : String) (vm : VM) : TreeNode :=
  TreeNode.mk NodeType.instanceNode vm.name (some vm) g false [] 1

/-- The group node built for group `g` inside `BuildFromVMs`. -/
def mkGroupNode (g : String) (vmsOfG : List VM) : TreeNode :=
  TreeNode.mk NodeType.groupNode g none g false (vmsOfG.map (mkInstanceChild g)) 0

/-- The top-level instance node built for an ungrouped VM (zero-valued
`GroupName`, depth 0). -/
def mkUngrouped (vm : VM) : TreeNode :=
  TreeNode.mk NodeType.instanceNode vm.name (some vm) "" false [] 0

/-- Model of `TreeManager.BuildFromVMs`: partition the records, then emit the
group nodes in ascending name order followed by the ungrouped instances in
source order. -/
def BuildFromVMs (vms : List VM) : List TreeNode :=
  let acc := vms.foldl partStep ([], [])
  let names := sortStrings (acc.1.map Prod.fst)
  names.map (fun g => mkGroupNode g (lookupGroup acc.1 g)) ++ acc.2.map mkUngrouped

/-! ### Association-list lemmas for the grouping map -/


theorem lookupGroup_cons (k : String) (l : List VM) (rest : List (String × List VM))
    (g2 : String) :
    lookupGroup ((k, l) :: rest) g2 = if k = g2 then l else lookupGroup rest g2 := rfl

theorem insertGroupVM_cons (k : String) (l : List VM) (rest : List (String × List VM))
    (g : String) (vm : VM) :
    insertGroupVM ((k, l) :: rest) g vm
      = if k = g then (k, l ++ [vm]) :: rest
        else (k, l) :: insertGroupVM rest g vm := rfl

theorem lookupGroup_insert :
    ∀ (gs : List (String × List VM)) (g : String) (vm : VM) (g2 : String),
      lookupGroup (insertGroupVM gs g vm) g2
        = if g2 = g then lookupGroup gs g2 ++ [vm] else lookupGroup gs g2
  | [], g, vm, g2 => by
    show lookupGroup [(g, [vm])] g2 = _
    rw [lookupGroup_cons]
    by_cases h : g2 = g
    · rw [if_pos h.symm, if_pos h]
      rfl
    · rw [if_neg (fun hh => h hh.symm), if_neg h]
  | (k, l) :: rest, g, vm, g2 => by
    rw [insertGroupVM_cons]
    by_cases hk : k = g
    · rw [if_pos hk, lookupGroup_cons, lookupGroup_cons]
      by_cases h2 : g2 = g
      · have hk2 : k = g2 := by rw [hk, h2]
        rw [if_pos hk2, if_pos h2, if_pos hk2]
      · have hk2 : ¬ k = g2 := fun hh => h2 (by rw [← hh, hk])
        rw [if_neg hk2, if_neg h2, if_neg hk2]
    · rw [if_neg hk, lookupGroup_cons, lookupGroup_cons]
      by_cases hk2 : k = g2
      · have h2 : ¬ g2 = g := fun hh => hk (by rw [hk2, hh])
        rw [if_pos hk2, if_neg h2, if_pos hk2]
      · rw [if_neg hk2, if_neg hk2]
        exact lookupGroup_insert rest g vm g2

theorem keys_insertGroupVM :
    ∀ (gs : List (String × List VM)) (g : String) (vm : VM),
      (insertGroupVM gs g vm).map Prod.fst
        = if g ∈ gs.map Prod.fst then gs.map Prod.fst
          else gs.map Prod.fst ++ [g]
  | [], g, vm => by simp [insertGroupVM]
  | (k, l) :: rest, g, vm => by
    rw [insertGroupVM_cons]
    by_cases hk : k = g
    · subst hk
      simp
    · have hgk : ¬ g = k := fun hh => hk hh.symm
      by_cases hmem : g ∈ rest.map Prod.fst
      · simp [hk, hgk, hmem, keys_insertGroupVM rest g vm]
      · simp [hk, hgk, hmem, keys_insertGroupVM rest g vm]

theorem mem_keys_insertGroupVM (gs : List (String × List VM)) (g k : String) (vm : VM) :
    g ∈ (insertGroupVM gs k vm).map Prod.fst ↔ g ∈ gs.map Prod.fst ∨ g = k := by
  rw [keys_insertGroupVM]
  by_cases hk : k ∈ gs.map Prod.fst
  · simp only [hk, if_true]
    constructor
    · exact Or.inl
    · rintro (h | rfl)
      · exact h
      · exact hk
  · simp [hk]

theorem nodup_keys_insertGroupVM (gs : List (String × List VM)) (g : String) (vm : VM)
    (h : (gs.map Prod.fst).Nodup) : ((insertGroupVM gs g vm).map Prod.fst).Nodup := by
  rw [keys_insertGroupVM]
  by_cases hk : g ∈ gs.map Prod.fst
  · simp [hk, h]
  · simp [hk, List.nodup_append, h]

/-! ### The grouping fold, characterized -/

theorem foldl_part_ungrouped :
    ∀ (vms : List VM) (acc : List (String × List VM) × List VM),
      (vms.foldl partStep acc).2
        = acc.2 ++ vms.filter (fun vm => GetInstanceGroup vm == "")
  | [], acc => by simp
  | vm :: rest, acc => by
    by_cases h : GetInstanceGroup vm = ""
    · simp [List.foldl_cons, List.filter_cons, partStep, h, foldl_part_ungrouped rest]
    · simp [List.foldl_cons, List.filter_cons, partStep, h, foldl_part_ungrouped rest]

theorem foldl_part_lookup :
    ∀ (vms : List VM) (acc : List (String × List VM) × List VM) (g : String), g ≠ "" →
      lookupGroup (vms.foldl partStep acc).1 g
        = lookupGroup acc.1 g ++ vms.filter (fun vm => GetInstanceGroup vm == g)
  | [], acc, g, _ => by simp
  | vm :: rest, acc, g, hg => by
    by_cases h : GetInstanceGroup vm = ""
    · have hne : ¬ ("" = g) := fun hh => hg hh.symm
      simp [List.foldl_cons, List.filter_cons, partStep, h, hne,
        foldl_part_lookup rest (acc.1, acc.2 ++ [vm]) g hg]
    · by_cases hvg : GetInstanceGroup vm = g
      · subst hvg
        simp [List.foldl_cons, List.filter_cons, partStep, h,
          foldl_part_lookup rest
            (insertGroupVM acc.1 (GetInstanceGroup vm) vm, acc.2) _ hg,
          lookupGroup_insert]
      · have hne2 : (GetInstanceGroup vm == g) = false := by
          simp only [beq_eq_false_iff_ne, ne_eq]
          exact hvg
        have hgne : ¬ g = GetInstanceGroup vm := fun hh => hvg hh.symm
        simp [List.foldl_cons, List.filter_cons, partStep, h, hne2, hgne,
          foldl_part_lookup rest
            (insertGroupVM acc.1 (GetInstanceGroup vm) vm, acc.2) g hg,
          lookupGroup_insert]

theorem foldl_part_keys_mem :
    ∀ (vms : List VM) (acc : List (String × List VM) × List VM) (g : String),
      (g ∈ (vms.foldl partStep acc).1.map Prod.fst
        ↔ g ∈ acc.1.map Prod.fst ∨ (g ≠ "" ∧ ∃ vm ∈ vms, GetInstanceGroup vm = g))
  | [], acc, g => by simp
  | vm :: rest, acc, g => by
    by_cases h : GetInstanceGroup vm = ""
    · rw [List.foldl_cons]
      rw [show partStep acc vm = (acc.1, acc.2 ++ [vm]) by simp [partStep, h]]
      rw [foldl_part_keys_mem rest (acc.1, acc.2 ++ [vm]) g]
      constructor
      · rintro (hin | ⟨hgne, v, hv, hveq⟩)
        · exact Or.inl hin
        · exact Or.inr ⟨hgne, v, List.mem_cons_of_mem vm hv, hveq⟩
      · rintro (hin | ⟨hgne, v, hv, hveq⟩)
        · exact Or.inl hin
        · rcases List.mem_cons.mp hv with rfl | hv2
          · exact absurd (hveq.symm.trans h) hgne
          · exact Or.inr ⟨hgne, v, hv2, hveq⟩
    · rw [List.foldl_cons]
      rw [show partStep acc vm
            = (insertGroupVM acc.1 (GetInstanceGroup vm) vm, acc.2) by simp [partStep, h]]
      rw [foldl_part_keys_mem rest (insertGroupVM acc.1 (GetInstanceGroup vm) vm, acc.2) g]
      rw [show ((insertGroupVM acc.1 (GetInstanceGroup vm) vm, acc.2) :
            List (String × List VM) × List VM).1
            = insertGroupVM acc.1 (GetInstanceGroup vm) vm from rfl]
      rw [mem_keys_insertGroupVM]
      constructor
      · rintro ((hin | rfl) | ⟨hgne, v, hv, hveq⟩)
        · exact Or.inl hin
        · exact Or.inr ⟨h, vm, List.mem_cons_self vm rest, rfl⟩
        · exact Or.inr ⟨hgne, v, List.mem_cons_of_mem vm hv, hveq⟩
      · rintro (hin | ⟨hgne, v, hv, hveq⟩)
        · exact Or.inl (Or.inl hin)
        · rcases List.mem_cons.mp hv with rfl | hv2
          · exact Or.inl (Or.inr hveq.symm)
          · exact Or.inr ⟨hgne, v, hv2, hveq⟩

theorem foldl_part_keys_nodup :
    ∀ (vms : List VM) (acc : List (String × List VM) × List VM),
      (acc.1.map Prod.fst).Nodup → ((vms.foldl partStep acc).1.map Prod.fst).Nodup
  | [], acc, h => h
  | vm :: rest, acc, h => by
    by_cases hg : GetInstanceGroup vm = ""
    · rw [List.foldl_cons]
      rw [show partStep acc vm = (acc.1, acc.2 ++ [vm]) by simp [partStep, hg]]
      exact foldl_part_keys_nodup rest (acc.1, acc.2 ++ [vm]) h
    · rw [List.foldl_cons]
      rw [show partStep acc vm
            = (insertGroupVM acc.1 (GetInstanceGroup vm) vm, acc.2) by simp [partStep, hg]]
      exact foldl_part_keys_nodup rest _ (nodup_keys_insertGroupVM acc.1 _ vm h)

/-! ### Properties of the lexicographic string order -/

theorem leChars_cons_iff (a b : Char) (as bs : List Char) :
    leChars (a :: as) (b :: bs) = true ↔ (a < b ∨ (a = b ∧ leChars as bs = true)) := by
  by_cases h1 : a < b
  · simp [leChars, h1]
  · by_cases h2 : b < a
    · have hab : a ≠ b := by
        rintro rfl
        exact absurd h2 (lt_irrefl a)
      simp [leChars, h1, h2, hab]
    · have hab : a = b := le_antisymm (not_lt.mp h2) (not_lt.mp h1)
      simp [leChars, h1, h2, hab]

theorem ltChars_cons_iff (a b : Char) (as bs : List Char) :
    ltChars (a :: as) (b :: bs) = true ↔ (a < b ∨ (a = b ∧ ltChars as bs = true)) := by
  by_cases h1 : a < b
  · simp [ltChars, h1]
  · by_cases h2 : b < a
    · have hab : a ≠ b := by
        rintro rfl
        exact absurd h2 (lt_irrefl a)
      simp [ltChars, h1, h2, hab]
    · have hab : a = b := le_antisymm (not_lt.mp h2) (not_lt.mp h1)
      simp [ltChars, h1, h2, hab]

theorem leChars_total : ∀ a b : List Char, leChars a b = true ∨ leChars b a = true
  | [], _ => Or.inl rfl
  | _ :: _, [] => Or.inr rfl
  | a :: as, b :: bs => by
    rcases lt_trichotomy a b with h | h | h
    · exact Or.inl ((leChars_cons_iff a b as bs).mpr (Or.inl h))
    · subst h
      rcases leChars_total as bs with ih | ih
      · exact Or.inl ((leChars_cons_iff a a as bs).mpr (Or.inr ⟨rfl, ih⟩))
      · exact Or.inr ((leChars_cons_iff a a bs as).mpr (Or.inr ⟨rfl, ih⟩))
    · exact Or.inr ((leChars_cons_iff b a bs as).mpr (Or.inl h))

theorem leChars_trans : ∀ a b c : List Char,
    leChars a b = true → leChars b c = true → leChars a c = true
  | [], _, _, _, _ => rfl
  | _ :: _, [], _, h1, _ => by simp [leChars] at h1
  | _ :: _, _ :: _, [], _, h2 => by simp [leChars] at h2
  | a :: as, b :: bs, c :: cs, h1, h2 => by
    rw [leChars_cons_iff] at h1 h2 ⊢
    rcases h1 with h1 | ⟨rfl, h1⟩
    · rcases h2 with h2 | ⟨rfl, _⟩
      · exact Or.inl (lt_trans h1 h2)
      · exact Or.inl h1
    · rcases h2 with h2 | ⟨rfl, h2⟩
      · exact Or.inl h2
      · exact Or.inr ⟨rfl, leChars_trans as bs cs h1 h2⟩

theorem leChars_ne_lt : ∀ a b : List Char,
    leChars a b = true → a ≠ b → ltChars a b = true
  | [], [], _, hne => absurd rfl hne
  | [], _ :: _, _, _ => rfl
  | _ :: _, [], h, _ => by simp [leChars] at h
  | a :: as, b :: bs, h, hne => by
    rw [leChars_cons_iff] at h
    rw [ltChars_cons_iff]
    rcases h with h | ⟨rfl, h⟩
    · exact Or.inl h
    · refine Or.inr ⟨rfl, leChars_ne_lt as bs h ?_⟩
      intro he
      exact hne (by rw [he])

theorem strLeB_total (a b : String) : strLeB a b = true ∨ strLeB b a = true :=
  leChars_total a.data b.data

theorem strLeB_trans (a b c : String) :
    strLeB a b = true → strLeB b c = true → strLeB a c = true :=
  leChars_trans a.data b.data c.data

theorem strData_inj {a b : String} (h : a.data = b.data) : a = b := by
  cases a
  cases b
  exact congrArg String.mk h

theorem strLeB_ne_lt (a b : String) (h : strLeB a b = true) (hne : a ≠ b) :
    strLtB a b = true :=
  leChars_ne_lt a.data b.data h (fun hd => hne (strData_inj hd))

/-! ### Insertion sort of the group names -/

theorem mem_insertSortedStr (g : String) :
    ∀ (l : List String) (x : String), x ∈ insertSortedStr g l ↔ x = g ∨ x ∈ l
  | [], x => by simp [insertSortedStr]
  | h :: t, x => by
    by_cases hle : strLeB g h = true
    · rw [insertSortedStr, if_pos hle]
      simp
    · rw [insertSortedStr, if_neg hle]
      rw [List.mem_cons, mem_insertSortedStr g t x, List.mem_cons]
      tauto

theorem pairwise_le_insertSortedStr (g : String) :
    ∀ l : List String, l.Pairwise (fun a b => strLeB a b = true) →
      (insertSortedStr g l).Pairwise (fun a b => strLeB a b = true)
  | [], _ => by simp [insertSortedStr]
  | h :: t, hp => by
    rcases List.pairwise_cons.mp hp with ⟨hh, ht⟩
    by_cases hle : strLeB g h = true
    · rw [insertSortedStr, if_pos hle]
      refine List.pairwise_cons.mpr ⟨?_, hp⟩
      intro x hx
      rcases List.mem_cons.mp hx with rfl | hx
      · exact hle
      · exact strLeB_trans g h x hle (hh x hx)
    · have hge : strLeB h g = true := by
        rcases strLeB_total g h with hgh | hhg
        · exact absurd hgh hle
        · exact hhg
      rw [insertSortedStr, if_neg hle]
      refine List.pairwise_cons.mpr ⟨?_, pairwise_le_insertSortedStr g t ht⟩
      intro x hx
      rcases (mem_insertSortedStr g t x).mp hx with rfl | hx
      · exact hge
      · exact hh x hx

theorem nodup_insertSortedStr (g : String) :
    ∀ l : List String, g ∉ l → l.Nodup → (insertSortedStr g l).Nodup
  | [], _, _ => by simp [insertSortedStr]
  | h :: t, hg, hd => by
    rcases List.nodup_cons.mp hd with ⟨hht, htd⟩
    by_cases hle : strLeB g h = true
    · rw [insertSortedStr, if_pos hle]
      exact List.nodup_cons.mpr ⟨hg, hd⟩
    · rw [insertSortedStr, if_neg hle]
      refine List.nodup_cons.mpr
        ⟨?_, nodup_insertSortedStr g t (fun hmem => hg (List.mem_cons_of_mem h hmem)) htd⟩
      intro hmem
      rcases (mem_insertSortedStr g t h).mp hmem with heq | hmem2
      · exact hg (List.mem_cons.mpr (Or.inl heq.symm))
      · exact hht hmem2

theorem mem_sortStrings :
    ∀ (l : List String) (x : String), x ∈ sortStrings l ↔ x ∈ l
  | [], x => by simp [sortStrings]
  | h :: t, x => by
    rw [sortStrings, mem_insertSortedStr, mem_sortStrings t x, List.mem_cons]

theorem nodup_sortStrings : ∀ l : List String, l.Nodup → (sortStrings l).Nodup
  | [], _ => List.Pairwise.nil
  | h :: t, hd => by
    rcases List.nodup_cons.mp hd with ⟨hht, htd⟩
    rw [sortStrings]
    exact nodup_insertSortedStr h (sortStrings t)
      (fun hmem => hht ((mem_sortStrings t h).mp hmem)) (nodup_sortStrings t htd)

theorem pairwise_le_sortStrings :
    ∀ l : List String, (sortStrings l).Pairwise (fun a b => strLeB a b = true)
  | [] => List.Pairwise.nil
  | h :: t => by
    rw [sortStrings]
    exact pairwise_le_insertSortedStr h (sortStrings t) (pairwise_le_sortStrings t)

theorem pairwise_lt_of_le_nodup :
    ∀ l : List String, l.Pairwise (fun a b => strLeB a b = true) → l.Nodup →
      l.Pairwise (fun a b => strLtB a b = true)
  | [], _, _ => List.Pairwise.nil
  | h :: t, hp, hd => by
    rcases List.pairwise_cons.mp hp with ⟨hh, ht⟩
    rcases List.nodup_cons.mp hd with ⟨hht, htd⟩
    refine List.pairwise_cons.mpr ⟨?_, pairwise_lt_of_le_nodup t ht htd⟩
    intro x hx
    refine strLeB_ne_lt h x (hh x hx) ?_
    intro he
    exact hht (he ▸ hx)

/-! ### Characterization of `BuildFromVMs` -/

theorem map_congr_mem {α β : Type} (f g : α → β) :
    ∀ l : List α, (∀ a ∈ l, f a = g a) → l.map f = l.map g
  | [], _ => rfl
  | a :: t, h => by
    rw [List.map_cons, List.map_cons, h a (List.mem_cons_self a t),
      map_congr_mem f g t (fun b hb => h b (List.mem_cons_of_mem a hb))]

theorem build_characterization (vms : List VM) :
    ∃ names : List String,
      BuildFromVMs vms
          = names.map (fun g =>
              mkGroupNode g (vms.filter (fun vm => GetInstanceGroup vm == g)))
            ++ (vms.filter (fun vm => GetInstanceGroup vm == "")).map mkUngrouped
      ∧ names.Pairwise (fun a b => strLtB a b = true)
      ∧ (∀ g : String, g ∈ names ↔ (g ≠ "" ∧ ∃ vm ∈ vms, GetInstanceGroup vm = g)) := by
  refine ⟨sortStrings ((vms.foldl partStep ([], [])).1.map Prod.fst), ?_, ?_, ?_⟩
  · simp only [BuildFromVMs]
    congr 1
    · refine map_congr_mem _ _ _ (fun g hg => ?_)
      have hgmem := (mem_sortStrings _ g).mp hg
      rcases (foldl_part_keys_mem vms ([], []) g).mp hgmem with hfalse | ⟨hgne, _⟩
      · simp at hfalse
      · rw [foldl_part_lookup vms ([], []) g hgne]
        rfl
    · rw [foldl_part_ungrouped vms ([], [])]
      rfl
  · exact pairwise_lt_of_le_nodup _ (pairwise_le_sortStrings _)
      (nodup_sortStrings _ (foldl_part_keys_nodup vms ([], []) (by simp)))
  · intro g
    rw [mem_sortStrings, foldl_part_keys_mem vms ([], []) g]
    simp

/-- Claim C5: `BuildFromVMs` produces exactly one group node per distinct
non-empty group name, listed in strictly ascending name order regardless of
the records' order, each carrying the instance nodes of its matching records
in source order; after all group nodes come the instance nodes of the
ungrouped records, in source order, so groups never interleave with
ungrouped instances. -/
theorem c5_build_structure (vms : List VM) :
    ∃ names : List String,
      BuildFromVMs vms
          = names.map (fun g =>
              mkGroupNode g (vms.filter (fun vm => GetInstanceGroup vm == g)))
            ++ (vms.filter (fun vm => GetInstanceGroup vm == "")).map mkUngrouped
      ∧ names.Pairwise (fun a b => strLtB a b = true)
      ∧ (∀ g : String, g ∈ names ↔ (g ≠ "" ∧ ∃ vm ∈ vms, GetInstanceGroup vm = g)) :=
  build_characterization vms

/-! ### Claim C2: the grouping rule

`assignedToGroup vms vm g` says the built tree has a group node named `g`
holding an instance node that references `vm` — the precise sense in which a
record "lands under group g". -/

def assignedToGroup (vms : List VM) (vm : VM) (g : String) : Prop :=
  ∃ n ∈ BuildFromVMs vms, n.type = NodeType.groupNode ∧ n.name = g
    ∧ ∃ c ∈ n.children, c.vm = some vm

/-- The split of a metadata value into `/`-separated path segments, as
strings. -/
def splitSlashStr (s : String) : List String := (splitOn '/' s.data).map String.mk

/-- The claim's grouping predicate, read literally: the metadata contains a
`created-by` entry whose value has a path segment literally named
`instanceGroupManagers` followed by a next segment `g` (consecutive-segment
pairs are exactly the `zip` with the tail). -/
def specHasGroupEntry (vm : VM) (g : String) : Prop :=
  ∃ item ∈ metaItems vm, item.key = "created-by" ∧
    ("instanceGroupManagers", g) ∈ (splitSlashStr item.value).zip (splitSlashStr item.value).tail

/-- A VM whose single `created-by` value contains two `instanceGroupManagers`
segments: the first is followed by an empty segment, the second by `b`. -/
def c2vm : VM :=
  VM.mk "vm-x" "zones/z1" "RUNNING"
    (some [MetadataItem.mk "created-by" "a/instanceGroupManagers//instanceGroupManagers/b"])

theorem c2_counterexample :
    specHasGroupEntry c2vm "b" ∧ c2vm ∈ [c2vm] ∧ ¬ assignedToGroup [c2vm] c2vm "b" := by
  refine ⟨?_, by simp, ?_⟩
  · unfold specHasGroupEntry
    decide
  · unfold assignedToGroup
    decide

/-! ### The amended extraction rule -/

theorem findIGMSuccessor_cons_cons (p q : List Char) (rest : List (List Char)) :
    findIGMSuccessor (p :: q :: rest)
      = if p = igmSeg then some q else findIGMSuccessor (q :: rest) := rfl

theorem getGroupFromItems_cons (item : MetadataItem) (rest : List MetadataItem) :
    getGroupFromItems (item :: rest)
      = if item.key = "created-by" ∧ strContainsSub item.value.data igmSlash then
          match findIGMSuccessor (splitOn '/' item.value.data) with
          | some g => String.mk g
          | none => getGroupFromItems rest
        else getGroupFromItems rest := rfl

theorem strMk_beq_igm (x : List Char) :
    (String.mk x == "instanceGroupManagers") = true ↔ x = igmSeg := by
  rw [beq_iff_eq]
  constructor
  · intro h
    exact congrArg String.data h
  · intro h
    subst h
    rfl

theorem find?_cons_eq {α : Type} (p : α → Bool) (a : α) (l : List α) :
    (a :: l).find? p = if p a then some a else l.find? p := by
  by_cases h : p a = true
  · rw [List.find?_cons_of_pos _ h, if_pos h]
  · rw [List.find?_cons_of_neg _ (by simp [h]), if_neg h]

/-- Scanning consecutive segment pairs for the first `instanceGroupManagers`
segment equals the Go inner loop `findIGMSuccessor`. -/
theorem find_zip_eq_findIGMSuccessor :
    ∀ parts : List (List Char),
      (((parts.map String.mk).zip (parts.map String.mk).tail).find?
          (fun pr => pr.1 == "instanceGroupManagers")).map Prod.snd
        = (findIGMSuccessor parts).map String.mk
  | [] => rfl
  | [_] => rfl
  | p :: q :: rest => by
    have ih := find_zip_eq_findIGMSuccessor (q :: rest)
    simp only [List.map_cons, List.tail_cons] at ih ⊢
    rw [List.zip_cons_cons, findIGMSuccessor_cons_cons]
    by_cases hp : p = igmSeg
    · subst hp
      rw [if_pos rfl, find?_cons_eq]
      have hpred : ((String.mk igmSeg == "instanceGroupManagers") : Bool) = true :=
        (strMk_beq_igm igmSeg).mpr rfl
      simp [hpred]
    · have hpred : ((String.mk p == "instanceGroupManagers") : Bool) = false := by
        rw [beq_eq_false_iff_ne]
        intro hh
        exact hp (congrArg String.data hh)
      rw [if_neg hp, find?_cons_eq]
      simpa [hpred] using ih

/-- The per-entry extraction of the amended claim: a `created-by` entry whose
value contains `instanceGroupManagers/` yields the segment following the
first `instanceGroupManagers` segment (if any); other entries yield nothing. -/
def specEntryGroup (item : MetadataItem) : Option String :=
  if item.key = "created-by" ∧ strContainsSub item.value.data igmSlash then
    (((splitSlashStr item.value).zip (splitSlashStr item.value).tail).find?
        (fun pr => pr.1 == "instanceGroupManagers")).map Prod.snd
  else none

/-- An empty extracted group name counts as no group. -/
def squashEmpty : Option String → Option String
  | some g => if g = "" then none else some g
  | none => none

/-- The amended extraction rule over a whole record: the first metadata entry
that yields a successor segment decides; an empty successor means ungrouped. -/
def specExtractGroup (vm : VM) : Option String :=
  squashEmpty ((metaItems vm).findSome? specEntryGroup)

theorem squash_findSome_specEntry :
    ∀ items : List MetadataItem,
      squashEmpty (items.findSome? specEntryGroup)
        = (if getGroupFromItems items = "" then none
           else some (getGroupFromItems items))
  | [] => by simp [squashEmpty, getGroupFromItems]
  | item :: rest => by
    rw [List.findSome?_cons, getGroupFromItems_cons]
    by_cases hk : item.key = "created-by" ∧ strContainsSub item.value.data igmSlash
    · have hentry : specEntryGroup item
          = (findIGMSuccessor (splitOn '/' item.value.data)).map String.mk := by
        rw [specEntryGroup, if_pos hk, splitSlashStr, find_zip_eq_findIGMSuccessor]
      rw [if_pos hk, hentry]
      cases hsucc : findIGMSuccessor (splitOn '/' item.value.data) with
      | none => exact squash_findSome_specEntry rest
      | some gl => rfl
    · have hentry : specEntryGroup item = none := by
        rw [specEntryGroup, if_neg hk]
      rw [if_neg hk, hentry]
      exact squash_findSome_specEntry rest

theorem specExtractGroup_eq (vm : VM) :
    specExtractGroup vm
      = (if GetInstanceGroup vm = "" then none else some (GetInstanceGroup vm)) :=
  squash_findSome_specEntry (metaItems vm)

theorem specExtractGroup_some_iff (vm : VM) (g : String) :
    specExtractGroup vm = some g ↔ (GetInstanceGroup vm = g ∧ g ≠ "") := by
  rw [specExtractGroup_eq]
  by_cases h : GetInstanceGroup vm = ""
  · rw [if_pos h]
    constructor
    · intro hh
      exact Option.noConfusion hh
    · rintro ⟨rfl, hne⟩
      exact absurd h hne
  · rw [if_neg h]
    constructor
    · intro hh
      cases hh
      exact ⟨rfl, h⟩
    · rintro ⟨rfl, _⟩
      rfl

theorem assignedToGroup_iff (vms : List VM) (vm : VM) (g : String) :
    assignedToGroup vms vm g ↔ (vm ∈ vms ∧ GetInstanceGroup vm = g ∧ g ≠ "") := by
  obtain ⟨names, hbuild, _, hmem⟩ := build_characterization vms
  unfold assignedToGroup
  rw [hbuild]
  constructor
  · rintro ⟨n, hn, hnt, hnn, c, hc, hcv⟩
    rcases List.mem_append.mp hn with hn2 | hn2
    · rcases List.mem_map.mp hn2 with ⟨g2, hg2, rfl⟩
      have hname : g2 = g := by
        rw [← hnn]
        rfl
      subst hname
      have hc2 : c ∈ (vms.filter
          (fun v => GetInstanceGroup v == g2)).map (mkInstanceChild g2) := hc
      rcases List.mem_map.mp hc2 with ⟨v, hv, rfl⟩
      have hvv : v = vm := Option.some.inj hcv
      subst hvv
      rcases List.mem_filter.mp hv with ⟨hvmem, hveq⟩
      exact ⟨hvmem, eq_of_beq hveq, ((hmem g2).mp hg2).1⟩
    · rcases List.mem_map.mp hn2 with ⟨v, hv, rfl⟩
      exact absurd hnt (by simp [mkUngrouped, TreeNode.type_mk])
  · rintro ⟨hvm, hgig, hgne⟩
    exact ⟨mkGroupNode g (vms.filter (fun v => GetInstanceGroup v == g)),
      List.mem_append_left _
        (List.mem_map.mpr ⟨g, (hmem g).mpr ⟨hgne, vm, hvm, hgig⟩, rfl⟩),
      rfl, rfl, mkInstanceChild g vm,
      List.mem_map.mpr ⟨vm, List.mem_filter.mpr ⟨hvm, by simp [hgig]⟩, rfl⟩, rfl⟩

/-- Claim C2 (amended): a record lands under group `g` iff `g` is the
non-empty segment produced by the first-match extraction rule: scanning the
metadata entries in order, the first `created-by` entry whose value contains
`instanceGroupManagers/` and has a segment literally named
`instanceGroupManagers` with a following segment decides the group as that
first following segment; an empty following segment, or the absence of any
such entry, leaves the record ungrouped.  (The original claim's "iff some
entry has an `instanceGroupManagers/<g>` pair" fails on values with several
such pairs; see the counterexample.) -/
theorem c2_grouping (vms : List VM) (vm : VM) (g : String) :
    assignedToGroup vms vm g ↔ (vm ∈ vms ∧ specExtractGroup vm = some g) := by
  rw [assignedToGroup_iff, specExtractGroup_some_iff]

/-! ### Pointer-level model of the filter (claim C9)

`FilterService.Filter` is re-embedded at the level of the Go heap: tree
nodes live at addresses, node lists hold addresses, and the derived group
nodes built by the filter are fresh allocations.  This captures what the
value-level embedding cannot state: the filter never writes to an existing
node, and the expanded groups it returns are new objects — not the
canonical nodes.  (A dangling address in the input — impossible for the
program's own node lists — is skipped where Go would fault.) -/

structure NodeObj where
  ntype : NodeType
  name : String
  vmref : Option VM
  groupName : String
  isExpanded : Bool
  children : List Nat
  depth : Nat

structure Heap where
  mem : Nat → Option NodeObj
  next : Nat

/-- Well-formed heap: addresses at or beyond the allocation frontier are
unallocated. -/
def Heap.WF (h : Heap) : Prop := ∀ a, h.next ≤ a → h.mem a = none

/-- Allocate one node object at the frontier. -/
def allocHeap (h : Heap) (obj : NodeObj) : Heap :=
  { mem := fun a => if a = h.next then some obj else h.mem a, next := h.next + 1 }

/-- Reading a child's name through its address (`child.Name` in the Go loop). -/
def childMatchesH (h : Heap) (fl : List Char) (ca : Nat) : Bool :=
  match h.mem ca with
  | some c => nameMatches fl c.name
  | none => false

/-- The fresh `filteredGroup` struct literal of the Go code: `Type`, `Name`,
`GroupName`, `Depth` copied, `IsExpanded` forced true, the given child
addresses installed, the `VM` pointer left nil. -/
def derivedGroupObj (node : NodeObj) (cs : List Nat) : NodeObj :=
  { ntype := NodeType.groupNode, name := node.name, vmref := none,
    groupName := node.groupName, isExpanded := true, children := cs,
    depth := node.depth }

/-- The loop of `FilterService.Filter` at heap level. -/
def filterLoopH (fl : List Char) : Heap → List Nat → Heap × List Nat
  | h, [] => (h, [])
  | h, a :: rest =>
    match h.mem a with
    | none => filterLoopH fl h rest
    | some node =>
      match node.ntype with
      | NodeType.groupNode =>
        if nameMatches fl node.name then
          ((filterLoopH fl (allocHeap h (derivedGroupObj node node.children)) rest).1,
            h.next
              :: (filterLoopH fl (allocHeap h (derivedGroupObj node node.children)) rest).2)
        else
          let mc := node.children.filter (childMatchesH h fl)
          if mc.length > 0 then
            ((filterLoopH fl (allocHeap h (derivedGroupObj node mc)) rest).1,
              h.next :: (filterLoopH fl (allocHeap h (derivedGroupObj node mc)) rest).2)
          else filterLoopH fl h rest
      | NodeType.instanceNode =>
        if nameMatches fl node.name then
          ((filterLoopH fl h rest).1, a :: (filterLoopH fl h rest).2)
        else filterLoopH fl h rest

/-- Heap-level model of `FilterService.Filter`. -/
def FilterHeap (h : Heap) (nodes : List Nat) (q : String) : Heap × List Nat :=
  if q = "" then (h, nodes)
  else filterLoopH (lowerData q.data) h nodes

theorem allocHeap_next (h : Heap) (obj : NodeObj) :
    (allocHeap h obj).next = h.next + 1 := rfl

theorem allocHeap_mem_frontier (h : Heap) (obj : NodeObj) :
    (allocHeap h obj).mem h.next = some obj := by
  simp [allocHeap]

theorem allocHeap_mem_ne (h : Heap) (obj : NodeObj) (a : Nat) (ha : a ≠ h.next) :
    (allocHeap h obj).mem a = h.mem a := by
  simp [allocHeap, ha]

theorem allocHeap_wf (h : Heap) (obj : NodeObj) (hwf : Heap.WF h) :
    Heap.WF (allocHeap h obj) := by
  intro a ha
  rw [allocHeap_next] at ha
  rw [allocHeap_mem_ne h obj a (by omega)]
  exact hwf a (by omega)

theorem filterLoopH_spec (fl : List Char) :
    ∀ (l : List Nat) (h : Heap), Heap.WF h →
      Heap.WF (filterLoopH fl h l).1
      ∧ h.next ≤ (filterLoopH fl h l).1.next
      ∧ (∀ a, a < h.next → (filterLoopH fl h l).1.mem a = h.mem a)
      ∧ (∀ a ∈ (filterLoopH fl h l).2, ∀ obj,
          (filterLoopH fl h l).1.mem a = some obj →
          obj.ntype = NodeType.groupNode →
          h.next ≤ a ∧ obj.isExpanded = true ∧ obj.vmref = none)
  | [], h, hwf => by
    refine ⟨hwf, le_refl _, fun a _ => rfl, fun a ha => absurd ha (by simp [filterLoopH])⟩
  | a :: rest, h, hwf => by
    cases hma : h.mem a with
    | none =>
      have heqn : filterLoopH fl h (a :: rest) = filterLoopH fl h rest := by
        simp [filterLoopH, hma]
      rw [heqn]
      exact filterLoopH_spec fl rest h hwf
    | some node =>
      have halt : a < h.next := by
        by_contra hcon
        rw [hwf a (by omega)] at hma
        exact Option.noConfusion hma
      cases hnt : node.ntype with
      | groupNode =>
        by_cases hm : nameMatches fl node.name = true
        · have heqn : filterLoopH fl h (a :: rest)
              = ((filterLoopH fl
                    (allocHeap h (derivedGroupObj node node.children)) rest).1,
                 h.next :: (filterLoopH fl
                    (allocHeap h (derivedGroupObj node node.children)) rest).2) := by
            simp [filterLoopH, hma, hnt, hm]
          rw [heqn]
          rcases filterLoopH_spec fl rest
              (allocHeap h (derivedGroupObj node node.children))
              (allocHeap_wf h _ hwf) with ⟨iwf, ile, iframe, iout⟩
          rw [allocHeap_next] at ile
          refine ⟨iwf, le_trans (Nat.le_succ h.next) ile, ?_, ?_⟩
          · intro a2 ha2
            rw [iframe a2 (by rw [allocHeap_next]; omega)]
            exact allocHeap_mem_ne h _ a2 (by omega)
          · intro b hb obj hobj hgt
            rcases List.mem_cons.mp hb with rfl | hb2
            · rw [iframe h.next (by rw [allocHeap_next]; omega),
                allocHeap_mem_frontier] at hobj
              cases hobj
              exact ⟨le_refl _, rfl, rfl⟩
            · rcases iout b hb2 obj hobj hgt with ⟨hfresh, hexp, hvm⟩
              rw [allocHeap_next] at hfresh
              exact ⟨by omega, hexp, hvm⟩
        · by_cases hc : ((node.children.filter (childMatchesH h fl)).length > 0)
          · have heqn : filterLoopH fl h (a :: rest)
                = ((filterLoopH fl (allocHeap h (derivedGroupObj node
                      (node.children.filter (childMatchesH h fl)))) rest).1,
                   h.next :: (filterLoopH fl (allocHeap h (derivedGroupObj node
                      (node.children.filter (childMatchesH h fl)))) rest).2) := by
              simp [filterLoopH, hma, hnt, hm, hc]
            rw [heqn]
            rcases filterLoopH_spec fl rest
                (allocHeap h (derivedGroupObj node
                  (node.children.filter (childMatchesH h fl))))
                (allocHeap_wf h _ hwf) with ⟨iwf, ile, iframe, iout⟩
            rw [allocHeap_next] at ile
            refine ⟨iwf, le_trans (Nat.le_succ h.next) ile, ?_, ?_⟩
            · intro a2 ha2
              rw [iframe a2 (by rw [allocHeap_next]; omega)]
              exact allocHeap_mem_ne h _ a2 (by omega)
            · intro b hb obj hobj hgt
              rcases List.mem_cons.mp hb with rfl | hb2
              · rw [iframe h.next (by rw [allocHeap_next]; omega),
                  allocHeap_mem_frontier] at hobj
                cases hobj
                exact ⟨le_refl _, rfl, rfl⟩
              · rcases iout b hb2 obj hobj hgt with ⟨hfresh, hexp, hvm⟩
                rw [allocHeap_next] at hfresh
                exact ⟨by omega, hexp, hvm⟩
          · have heqn : filterLoopH fl h (a :: rest) = filterLoopH fl h rest := by
              simp [filterLoopH, hma, hnt, hm, hc]
            rw [heqn]
            exact filterLoopH_spec fl rest h hwf
      | instanceNode =>
        by_cases hm : nameMatches fl node.name = true
        · have heqn : filterLoopH fl h (a :: rest)
              = ((filterLoopH fl h rest).1, a :: (filterLoopH fl h rest).2) := by
            simp [filterLoopH, hma, hnt, hm]
          rw [heqn]
          rcases filterLoopH_spec fl rest h hwf with ⟨iwf, ile, iframe, iout⟩
          refine ⟨iwf, ile, iframe, ?_⟩
          intro b hb obj hobj hgt
          rcases List.mem_cons.mp hb with rfl | hb2
          · rw [iframe b halt, hma] at hobj
            cases hobj
            rw [hnt] at hgt
            exact absurd hgt (by simp)
          · exact iout b hb2 obj hobj hgt
        · have heqn : filterLoopH fl h (a :: rest) = filterLoopH fl h rest := by
            simp [filterLoopH, hma, hnt, hm]
          rw [heqn]
          exact filterLoopH_spec fl rest h hwf

/-- Claim C9: the filter never mutates its input — every address allocated
before the call holds the same node object afterwards, so every node of the
input list keeps its name, type, vm, group name, children and expanded flag;
and for a non-empty query every group node in the result sits at a fresh
address: it is a newly constructed derived node with `expanded` forced true
and a nil `VM` field, never one of the canonical nodes. -/
theorem c9_filter_no_mutation (h : Heap) (nodes : List Nat) (q : String)
    (hwf : Heap.WF h) :
    (∀ a, a < h.next → (FilterHeap h nodes q).1.mem a = h.mem a)
    ∧ (q ≠ "" → ∀ a ∈ (FilterHeap h nodes q).2, ∀ obj,
        (FilterHeap h nodes q).1.mem a = some obj →
        obj.ntype = NodeType.groupNode →
        h.next ≤ a ∧ obj.isExpanded = true ∧ obj.vmref = none) := by
  by_cases hq : q = ""
  · subst hq
    exact ⟨fun a _ => rfl, fun hqe => absurd rfl hqe⟩
  · have hs := filterLoopH_spec (lowerData q.data) nodes h hwf
    constructor
    · intro a ha
      simpa [FilterHeap, hq] using hs.2.2.1 a ha
    · intro _ a ha obj hobj hgt
      rw [show FilterHeap h nodes q = filterLoopH (lowerData q.data) h nodes from
        by rw [FilterHeap, if_neg hq]] at ha hobj
      exact hs.2.2.2 a ha obj hobj hgt

def c9GroupObj : NodeObj :=
  { ntype := NodeType.groupNode, name := "web-fleet", vmref := none,
    groupName := "web-fleet", isExpanded := false, children := [1], depth := 0 }

def c9ChildObj : NodeObj :=
  { ntype := NodeType.instanceNode, name := "web-1", vmref := some vmWeb1,
    groupName := "web-fleet", isExpanded := false, children := [], depth := 1 }

def c9Heap : Heap :=
  { mem := fun a => if a = 0 then some c9GroupObj
      else if a = 1 then some c9ChildObj else none,
    next := 2 }

theorem c9_witness :
    (∀ a, a < c9Heap.next → (FilterHeap c9Heap [0] "web").1.mem a = c9Heap.mem a)
    ∧ ("web" ≠ "" → ∀ a ∈ (FilterHeap c9Heap [0] "web").2, ∀ obj,
        (FilterHeap c9Heap [0] "web").1.mem a = some obj →
        obj.ntype = NodeType.groupNode →
        c9Heap.next ≤ a ∧ obj.isExpanded = true ∧ obj.vmref = none) :=
  c9_filter_no_mutation c9Heap [0] "web"
    (by
      intro a ha
      have ha2 : 2 ≤ a := ha
      have h0 : a ≠ 0 := by omega
      have h1 : a ≠ 1 := by omega
      simp [c9Heap, h0, h1])

/-! ### Interaction controller (src/main.go, BUBBLE TEA MODEL section)

The `tea.Model` is embedded as a record of the state-bearing fields; the
embedded `list.Model` (an external widget) is reduced to its cursor index
and its item count, and styling/title strings are presentation and not part
of the state.  `tea.Cmd` values are an enumeration of the commands the code
can return (`tea.Quit`, the two load requests, or none; the cursor-move
commands the external widget may produce carry no state and are modelled as
none). -/

/-- The `AppState` enumeration.  `StateQuitting` is declared in the Go code
but never assigned; quitting is tracked by the `quitting` flag. -/
inductive AppState where
  | loadingProjects
  | selectingProject
  | loadingVMs
  | selectingVM
  | readyToConnect
  | quitting
deriving DecidableEq, Repr

/-- A GCP project record. -/
structure Project where
  projectId : String
  name : String
  status : String
deriving DecidableEq, Repr

/-- The commands the controller can emit. -/
inductive Cmd where
  | none
  | quit
  | loadProjects
  | loadVMs (project : String)
deriving DecidableEq, Repr

/-- The messages consumed by `model.Update`. -/
inductive Msg where
  | key (k : String)
  | projectsLoaded (ps : List Project)
  | vmsLoaded (vms : List VM)
  | errorMsg (e : String)
  | windowSize (w y : Int)

/-- The state-bearing fields of the Go `model` struct. -/
structure Model where
  state : AppState
  quitting : Bool
  projects : List Project
  selectedProject : String
  selectedVM : Option VM
  err : Option String
  nodes : List TreeNode
  displayedNodes : List TreeNode
  listIndex : Nat
  filtering : Bool
  filterText : String

/-- Model of `model.getCurrentNode`: the row of the cached flattened
sequence under the cursor (out-of-range and empty cases yield nil). -/
def getCurrentNode (m : Model) : Option TreeNode := m.displayedNodes.get? m.listIndex

/-- Model of `model.updateVMList`: recompute the displayed rows by filtering
(when the filter is active and non-empty) and flattening; the canonical
`nodes` are restored untouched, exactly as the Go code swaps them back. -/
def updateVMList (m : Model) : Model :=
  let toShow := if m.filtering = true ∧ m.filterText ≠ "" then FilterF m.nodes m.filterText
                else m.nodes
  { m with displayedNodes := FlattenForDisplay toShow }

/-- Model of `isValidFilterChar`. -/
def isValidFilterChar (c : Char) : Bool :=
  if ('a' ≤ c ∧ c ≤ 'z') ∨ ('A' ≤ c ∧ c ≤ 'Z') ∨ ('0' ≤ c ∧ c ≤ '9')
      ∨ c = '-' ∨ c = '_' ∨ c = ' '
  then true else false

/-- Model of `m.filterText[:len-1]` (the filter text is ASCII by
construction, so the byte-wise truncation is the char-wise one). -/
def dropLastChar (s : String) : String := String.mk s.data.dropLast

/-- Model of `model.handleFilteringInput`. -/
def handleFilteringInput (m : Model) (k : String) : Model × Cmd :=
  if k = "esc" then
    (updateVMList { m with filtering := false, filterText := "" }, Cmd.none)
  else if k = "backspace" ∨ k = "ctrl+h" then
    if m.filterText.length > 0 then
      (updateVMList { m with filterText := dropLastChar m.filterText }, Cmd.none)
    else (m, Cmd.none)
  else if k = "enter" then
    match getCurrentNode m with
    | Option.none => (m, Cmd.none)
    | Option.some n =>
      match n.type with
      | NodeType.instanceNode =>
        ({ m with selectedVM := n.vm, state := AppState.readyToConnect }, Cmd.quit)
      | NodeType.groupNode =>
        (updateVMList { m with nodes := toggleFirst n.name m.nodes }, Cmd.none)
  else
    match k.data with
    | [c] =>
      if isValidFilterChar c then
        (updateVMList { m with filterText := m.filterText ++ k }, Cmd.none)
      else (m, Cmd.none)
    | _ => (m, Cmd.none)

/-- Model of `model.goBackToProjectSelection` (list items and title are
presentation; the displayed-node cache is cleared). -/
def goBackToProjectSelection (m : Model) : Model × Cmd :=
  ({ m with state := AppState.selectingProject, displayedNodes := [] }, Cmd.none)

/-- Model of `model.handleEnterOnVM`. -/
def handleEnterOnVM (m : Model) : Model × Cmd :=
  match getCurrentNode m with
  | Option.none => (m, Cmd.none)
  | Option.some n =>
    match n.type with
    | NodeType.groupNode =>
      (updateVMList { m with nodes := ToggleNode m.nodes n }, Cmd.none)
    | NodeType.instanceNode =>
      ({ m with selectedVM := n.vm, state := AppState.readyToConnect }, Cmd.quit)

/-- Model of `model.handleVMSelection`. -/
def handleVMSelection (m : Model) (k : String) : Model × Cmd :=
  if k = "right" then
    match getCurrentNode m with
    | Option.some n =>
      if n.type = NodeType.groupNode ∧ n.isExpanded = false then
        (updateVMList { m with nodes := ToggleNode m.nodes n }, Cmd.none)
      else (m, Cmd.none)
    | Option.none => (m, Cmd.none)
  else if k = "left" then
    match getCurrentNode m with
    | Option.some n =>
      if n.type = NodeType.groupNode ∧ n.isExpanded = true then
        (updateVMList { m with nodes := ToggleNode m.nodes n }, Cmd.none)
      else (m, Cmd.none)
    | Option.none => (m, Cmd.none)
  else if k = "space" then
    match getCurrentNode m with
    | Option.some n =>
      if n.type = NodeType.groupNode then
        (updateVMList { m with nodes := ToggleNode m.nodes n }, Cmd.none)
      else (m, Cmd.none)
    | Option.none => (m, Cmd.none)
  else if k = "enter" then handleEnterOnVM m
  else if k = "/" then
    if m.filtering = false then
      (updateVMList { m with filtering := true, filterText := "" }, Cmd.none)
    else (m, Cmd.none)
  else if k = "esc" then goBackToProjectSelection m
  else if k = "q" then ({ m with quitting := true }, Cmd.quit)
  else (m, Cmd.none)

/-- The prefix of a character list up to (excluding) the first occurrence of
the two-character separator `" ("` — Go's `strings.Split(s, " (")[0]`. -/
def takeBeforeParen : List Char → List Char
  | [] => []
  | c :: rest =>
    if c = ' ' ∧ rest.head? = Option.some '(' then []
    else c :: takeBeforeParen rest

/-- The display string `"projectId (projectName)"` built for a project row. -/
def projectDisplay (p : Project) : String := p.projectId ++ " (" ++ p.name ++ ")"

/-- The project identifier extracted back out of the display string. -/
def extractProjectID (s : String) : String := String.mk (takeBeforeParen s.data)

/-- Model of `model.handleGlobalKeys`. -/
def handleGlobalKeys (m : Model) (k : String) : Model × Cmd :=
  if k = "ctrl+c" then ({ m with quitting := true }, Cmd.quit)
  else if k = "q" then
    if m.state = AppState.selectingProject ∨ m.state = AppState.loadingProjects then
      ({ m with quitting := true }, Cmd.quit)
    else (m, Cmd.none)
  else if k = "enter" then
    if m.state = AppState.selectingProject then
      match m.projects.get? m.listIndex with
      | Option.some p =>
        ({ m with selectedProject := extractProjectID (projectDisplay p), state := AppState.loadingVMs },
          Cmd.loadVMs (extractProjectID (projectDisplay p)))
      | Option.none => (m, Cmd.none)
    else (m, Cmd.none)
  else (m, Cmd.none)

def navKeys : List String := ["up", "k", "down", "j", "pgup", "pgdown", "home", "end"]

/-- Model of `model.shouldHandleNavigation`. -/
def shouldHandleNavigation (m : Model) (k : String) : Bool :=
  if (m.state = AppState.selectingProject ∨ m.state = AppState.selectingVM)
      ∧ k ∈ navKeys
  then true else false

/-- The number of rows in the embedded list widget for the current state. -/
def itemCount (m : Model) : Nat :=
  if m.state = AppState.selectingProject then m.projects.length
  else m.displayedNodes.length

/-- Models the external list widget's response to a navigation key (bubbles
`list.Model.Update`): only the cursor index moves; no application state is
touched.  The exact cursor arithmetic is the widget's own concern and is
irrelevant to the claims. -/
def navIndex (k : String) (i count : Nat) : Nat :=
  if k = "up" ∨ k = "k" then i - 1
  else if k = "down" ∨ k = "j" then min (i + 1) (count - 1)
  else if k = "pgup" then i - 10
  else if k = "pgdown" then min (i + 10) (count - 1)
  else if k = "home" then 0
  else if k = "end" then count - 1
  else i

/-- Model of `model.handleKeyPress`. -/
def handleKeyPress (m : Model) (k : String) : Model × Cmd :=
  if m.state = AppState.selectingVM ∧ m.filtering = true then handleFilteringInput m k
  else if m.state = AppState.selectingVM then handleVMSelection m k
  else handleGlobalKeys m k

/-- The `tea.KeyMsg` case of `model.Update`. -/
def UpdateKey (m : Model) (k : String) : Model × Cmd :=
  if shouldHandleNavigation m k = true then
    ({ m with listIndex := navIndex k m.listIndex (itemCount m) }, Cmd.none)
  else handleKeyPress m k

/-- Model of `model.Update`. -/
def Update (m : Model) (msg : Msg) : Model × Cmd :=
  match msg with
  | Msg.windowSize _ _ => (m, Cmd.none)
  | Msg.key k => UpdateKey m k
  | Msg.projectsLoaded ps =>
    ({ m with projects := ps, state := AppState.selectingProject }, Cmd.none)
  | Msg.vmsLoaded vms =>
    (updateVMList { m with state := AppState.selectingVM, filtering := false, filterText := "", nodes := BuildFromVMs vms }, Cmd.none)
  | Msg.errorMsg e => ({ m with err := Option.some e }, Cmd.none)

/-- The list widget's rendering plus the per-state help footer; the row text
itself (colors, pagination) belongs to the external widget and is abstracted
to a placeholder. -/
def listBody (m : Model) : String :=
  let s := "\n" ++ "<list>"
  if m.state = AppState.selectingProject then
    s ++ "\n\n  Press Enter to select, \x27q\x27 to quit"
  else if m.state = AppState.selectingVM then
    if m.filtering = true then
      s ++ "\n  Press Enter to connect, Backspace to edit, Esc to clear filter, \x27q\x27 to quit"
    else
      s ++ "\n\n  Press Enter to select/expand, → to expand, ← to collapse, Space to toggle, \x27/\x27 to filter, Esc to go back, \x27q\x27 to quit"
  else s

/-- Model of `model.View` (styling abstracted away; branch order preserved
exactly: the loading-state branches precede the error branch). -/
def View (m : Model) : String :=
  if m.quitting = true then "Goodbye!"
  else if m.state = AppState.loadingProjects then "\n  Loading GCP projects...\n\n"
  else if m.state = AppState.loadingVMs then
    "\n  Loading VMs for project: " ++ m.selectedProject ++ "\n\n"
  else if m.state = AppState.readyToConnect then
    "\n  Connecting to " ++ (match m.selectedVM with
      | Option.some vm => vm.name
      | Option.none => "") ++ "...\n\n"
  else if m.err ≠ Option.none then
    "\n  Error: " ++ m.err.getD "" ++ "\n\n  Press \x27q\x27 to quit.\n"
  else listBody m

theorem updateVMList_state (m : Model) : (updateVMList m).state = m.state := rfl

theorem updateVMList_quitting (m : Model) : (updateVMList m).quitting = m.quitting := rfl

theorem updateVMList_filtering (m : Model) : (updateVMList m).filtering = m.filtering := rfl

theorem updateVMList_filterText (m : Model) : (updateVMList m).filterText = m.filterText := rfl

/-! ### Claim C8: a failed projects load -/

def c8Model : Model :=
  Model.mk AppState.loadingProjects false [] "" Option.none Option.none [] [] 0 false ""

def c8Failed : Model := (Update c8Model (Msg.errorMsg "listing failed")).1

/-- Claim C8 (code bug): when the projects load fails, the controller stays
in `LoadingProjects` with no command, records the error, and accepts only
the quit keys (`q`, `ctrl+c`); every other key leaves the model unchanged
and emits no command.  But the recorded error is never rendered: `View`
returns the "Loading GCP projects..." placeholder, because the
state test precedes the error test, so the one-line error message with the
quit hint that the spec promises is unreachable in this state. -/
theorem c8_error_handling :
    Update c8Model (Msg.errorMsg "listing failed") = (c8Failed, Cmd.none)
    ∧ c8Failed.state = AppState.loadingProjects
    ∧ c8Failed.err = Option.some "listing failed"
    ∧ View c8Failed = "\n  Loading GCP projects...\n\n"
    ∧ (∀ k : String, k ≠ "q" → k ≠ "ctrl+c" →
        Update c8Failed (Msg.key k) = (c8Failed, Cmd.none))
    ∧ Update c8Failed (Msg.key "q") = ({ c8Failed with quitting := true }, Cmd.quit)
    ∧ Update c8Failed (Msg.key "ctrl+c")
        = ({ c8Failed with quitting := true }, Cmd.quit) := by
  refine ⟨rfl, rfl, rfl, rfl, ?_, rfl, rfl⟩
  intro k hq hcc
  have hstate : c8Failed.state = AppState.loadingProjects := rfl
  have hnav : shouldHandleNavigation c8Failed k = false := by
    simp [shouldHandleNavigation, hstate]
  by_cases hk : k = "enter"
  · subst hk
    simp [Update, UpdateKey, hnav, handleKeyPress, handleGlobalKeys, hstate, hq, hcc]
  · simp [Update, UpdateKey, hnav, handleKeyPress, handleGlobalKeys, hstate, hq, hcc, hk]

theorem c8_witness : Update c8Failed (Msg.key "x") = (c8Failed, Cmd.none) :=
  c8_error_handling.2.2.2.2.1 "x" (by decide) (by decide)

/-! ### Claim C10: the filtering sub-mode never quits -/

theorem handleFilteringInput_shape (m : Model) (k : String) :
    (handleFilteringInput m k).1.quitting = m.quitting
    ∧ (((handleFilteringInput m k).1.state = m.state
          ∧ (handleFilteringInput m k).1.filtering = m.filtering)
        ∨ (k = "esc"
          ∧ (handleFilteringInput m k).1.state = m.state
          ∧ (handleFilteringInput m k).1.filtering = false
          ∧ (handleFilteringInput m k).1.filterText = "")
        ∨ (k = "enter"
          ∧ (handleFilteringInput m k).1.state = AppState.readyToConnect
          ∧ (handleFilteringInput m k).1.filtering = m.filtering
          ∧ ∃ n, getCurrentNode m = Option.some n
            ∧ n.type = NodeType.instanceNode)) := by
  by_cases hesc : k = "esc"
  · subst hesc
    exact ⟨rfl, Or.inr (Or.inl ⟨rfl, rfl, rfl, rfl⟩)⟩
  · by_cases hbs : k = "backspace" ∨ k = "ctrl+h"
    · have heq2 : handleFilteringInput m k
          = if m.filterText.length > 0 then
              (updateVMList { m with filterText := dropLastChar m.filterText }, Cmd.none)
            else (m, Cmd.none) := by
        rw [handleFilteringInput, if_neg hesc, if_pos hbs]
      by_cases hlen : m.filterText.length > 0
      · rw [heq2, if_pos hlen]
        exact ⟨rfl, Or.inl ⟨rfl, rfl⟩⟩
      · rw [heq2, if_neg hlen]
        exact ⟨rfl, Or.inl ⟨rfl, rfl⟩⟩
    · by_cases hent : k = "enter"
      · subst hent
        cases hcur : getCurrentNode m with
        | none =>
          have heq2 : handleFilteringInput m "enter" = (m, Cmd.none) := by
            rw [handleFilteringInput, if_neg (by decide), if_neg (by decide),
              if_pos rfl, hcur]
          rw [heq2]
          exact ⟨rfl, Or.inl ⟨rfl, rfl⟩⟩
        | some n =>
          cases hnt : n.type with
          | instanceNode =>
            have heq2 : handleFilteringInput m "enter"
                = ({ m with selectedVM := n.vm, state := AppState.readyToConnect },
                    Cmd.quit) := by
              rw [handleFilteringInput, if_neg (by decide), if_neg (by decide),
                if_pos rfl, hcur]
              show (match n.type with
                | NodeType.instanceNode =>
                  ({ m with selectedVM := n.vm, state := AppState.readyToConnect },
                    Cmd.quit)
                | NodeType.groupNode =>
                  (updateVMList { m with nodes := toggleFirst n.name m.nodes },
                    Cmd.none)) = _
              rw [hnt]
            rw [heq2]
            exact ⟨rfl, Or.inr (Or.inr ⟨rfl, rfl, rfl, n, rfl, hnt⟩)⟩
          | groupNode =>
            have heq2 : handleFilteringInput m "enter"
                = (updateVMList { m with nodes := toggleFirst n.name m.nodes },
                    Cmd.none) := by
              rw [handleFilteringInput, if_neg (by decide), if_neg (by decide),
                if_pos rfl, hcur]
              show (match n.type with
                | NodeType.instanceNode =>
                  ({ m with selectedVM := n.vm, state := AppState.readyToConnect },
                    Cmd.quit)
                | NodeType.groupNode =>
                  (updateVMList { m with nodes := toggleFirst n.name m.nodes },
                    Cmd.none)) = _
              rw [hnt]
            rw [heq2]
            exact ⟨rfl, Or.inl ⟨rfl, rfl⟩⟩
      · have heq2 : handleFilteringInput m k
            = match k.data with
              | [c] =>
                if isValidFilterChar c then
                  (updateVMList { m with filterText := m.filterText ++ k }, Cmd.none)
                else (m, Cmd.none)
              | _ => (m, Cmd.none) := by
          rw [handleFilteringInput, if_neg hesc, if_neg hbs, if_neg hent]
        rw [heq2]
        cases k.data with
        | nil => exact ⟨rfl, Or.inl ⟨rfl, rfl⟩⟩
        | cons c rest =>
          cases rest with
          | nil =>
            by_cases hv : isValidFilterChar c = true
            · rw [show (match [c] with
                  | [c] =>
                    if isValidFilterChar c then
                      (updateVMList { m with filterText := m.filterText ++ k }, Cmd.none)
                    else (m, Cmd.none)
                  | _ => (m, Cmd.none))
                  = if isValidFilterChar c then
                      (updateVMList { m with filterText := m.filterText ++ k }, Cmd.none)
                    else (m, Cmd.none) from rfl, if_pos hv]
              exact ⟨rfl, Or.inl ⟨rfl, rfl⟩⟩
            · rw [show (match [c] with
                  | [c] =>
                    if isValidFilterChar c then
                      (updateVMList { m with filterText := m.filterText ++ k }, Cmd.none)
                    else (m, Cmd.none)
                  | _ => (m, Cmd.none))
                  = if isValidFilterChar c then
                      (updateVMList { m with filterText := m.filterText ++ k }, Cmd.none)
                    else (m, Cmd.none) from rfl, if_neg hv]
              exact ⟨rfl, Or.inl ⟨rfl, rfl⟩⟩
          | cons c2 rest2 => exact ⟨rfl, Or.inl ⟨rfl, rfl⟩⟩

/-- Claim C10: while `SelectingVM` is in the filtering sub-mode, no key
press reaches the quitting state or sets the quit flag: `q` is an ordinary
filter character that appends to the query, `ctrl+c` (a multi-character key
name) is ignored entirely, and the only exits from filtering are `esc`
(clears the query and stays in `SelectingVM`) and `enter` on an instance
row (transition to `ReadyToConnect`). -/
theorem c10_filtering_no_quit (m : Model) (k : String)
    (hs : m.state = AppState.selectingVM) (hf : m.filtering = true)
    (hq : m.quitting = false) :
    ((UpdateKey m k).1.quitting = false ∧ (UpdateKey m k).1.state ≠ AppState.quitting)
    ∧ (k = "q" →
        (UpdateKey m k).1.filterText = m.filterText ++ "q"
        ∧ (UpdateKey m k).1.state = AppState.selectingVM
        ∧ (UpdateKey m k).1.filtering = true
        ∧ (UpdateKey m k).2 = Cmd.none)
    ∧ (k = "ctrl+c" → UpdateKey m k = (m, Cmd.none))
    ∧ (k = "esc" →
        (UpdateKey m k).1.filtering = false
        ∧ (UpdateKey m k).1.filterText = ""
        ∧ (UpdateKey m k).1.state = AppState.selectingVM)
    ∧ (((UpdateKey m k).1.state ≠ AppState.selectingVM
          ∨ (UpdateKey m k).1.filtering = false) →
        (k = "esc" ∧ (UpdateKey m k).1.state = AppState.selectingVM
            ∧ (UpdateKey m k).1.filtering = false)
        ∨ (k = "enter" ∧ (UpdateKey m k).1.state = AppState.readyToConnect
            ∧ ∃ n, getCurrentNode m = Option.some n
              ∧ n.type = NodeType.instanceNode)) := by
  by_cases hnav : shouldHandleNavigation m k = true
  · have heqn : UpdateKey m k
        = ({ m with listIndex := navIndex k m.listIndex (itemCount m) }, Cmd.none) := by
      rw [UpdateKey, if_pos hnav]
    have hknav : k ∈ navKeys := by
      by_contra hcon
      rw [shouldHandleNavigation, if_neg (fun hc => hcon hc.2)] at hnav
      exact Bool.false_ne_true hnav
    rw [heqn]
    refine ⟨⟨hq, ?_⟩, ?_, ?_, ?_, ?_⟩
    · show m.state ≠ AppState.quitting
      rw [hs]
      simp
    · intro hkq
      rw [hkq] at hknav
      exact absurd hknav (by decide)
    · intro hkc
      rw [hkc] at hknav
      exact absurd hknav (by decide)
    · intro hke
      rw [hke] at hknav
      exact absurd hknav (by decide)
    · intro hcon
      rcases hcon with hcon | hcon
      · exact absurd hs hcon
      · have hmf : m.filtering = false := hcon
        rw [hf] at hmf
        exact absurd hmf (by decide)
  · have heqn : UpdateKey m k = handleFilteringInput m k := by
      rw [UpdateKey, if_neg hnav, handleKeyPress, if_pos ⟨hs, hf⟩]
    rcases handleFilteringInput_shape m k with ⟨hquit, hsh⟩
    rw [heqn]
    refine ⟨⟨hquit.trans hq, ?_⟩, ?_, ?_, ?_, ?_⟩
    · rcases hsh with ⟨hst, _⟩ | ⟨_, hst, _, _⟩ | ⟨_, hst, _, _⟩
      · rw [hst, hs]
        simp
      · rw [hst, hs]
        simp
      · rw [hst]
        simp
    · intro hkq
      subst hkq
      have heqq : handleFilteringInput m "q"
          = (updateVMList { m with filterText := m.filterText ++ "q" }, Cmd.none) := rfl
      rw [heqq]
      exact ⟨rfl, hs, hf, rfl⟩
    · intro hkc
      subst hkc
      rfl
    · intro hke
      subst hke
      exact ⟨rfl, rfl, hs⟩
    · intro hcon
      rcases hsh with ⟨hst, hfl⟩ | ⟨hk2, hst, hfl, _⟩ | ⟨hk2, hst, hfl, hex⟩
      · rcases hcon with hcon | hcon
        · rw [hst] at hcon
          exact absurd hs hcon
        · rw [hfl, hf] at hcon
          exact absurd hcon (by decide)
      · exact Or.inl ⟨hk2, hst.trans hs, hfl⟩
      · exact Or.inr ⟨hk2, hst, hex⟩

def c10Model : Model :=
  Model.mk AppState.selectingVM false [] "proj" Option.none Option.none
    sampleNodes (FlattenForDisplay sampleNodes) 0 true "web"

theorem c10_witness :
    ((UpdateKey c10Model "q").1.quitting = false
      ∧ (UpdateKey c10Model "q").1.state ≠ AppState.quitting)
    ∧ ("q" = "q" →
        (UpdateKey c10Model "q").1.filterText = c10Model.filterText ++ "q"
        ∧ (UpdateKey c10Model "q").1.state = AppState.selectingVM
        ∧ (UpdateKey c10Model "q").1.filtering = true
        ∧ (UpdateKey c10Model "q").2 = Cmd.none)
    ∧ ("q" = "ctrl+c" → UpdateKey c10Model "q" = (c10Model, Cmd.none))
    ∧ ("q" = "esc" →
        (UpdateKey c10Model "q").1.filtering = false
        ∧ (UpdateKey c10Model "q").1.filterText = ""
        ∧ (UpdateKey c10Model "q").1.state = AppState.selectingVM)
    ∧ (((UpdateKey c10Model "q").1.state ≠ AppState.selectingVM
          ∨ (UpdateKey c10Model "q").1.filtering = false) →
        ("q" = "esc" ∧ (UpdateKey c10Model "q").1.state = AppState.selectingVM
            ∧ (UpdateKey c10Model "q").1.filtering = false)
        ∨ ("q" = "enter"
            ∧ (UpdateKey c10Model "q").1.state = AppState.readyToConnect
            ∧ ∃ n, getCurrentNode c10Model = Option.some n
              ∧ n.type = NodeType.instanceNode)) :=
  c10_filtering_no_quit c10Model "q" rfl rfl rfl
